import Mathlib

set_option maxRecDepth 100000

/-!
Verification of the mina-signer Go library against its specification.

This file gives a shallow embedding, in Lean 4, of the parts of the
library that the checked claims are about: the finite-field helpers
(`field` package), the projective curve arithmetic (`curve` package),
the hash-input packing (`poseidonbigint` package), the nonce-derivation
and network-id helpers of the Schnorr layer (`schnorr` package), and the
compressed-key reconstruction (`curvebigint` package).

Go `*big.Int` values are modelled as `Nat` where the source only ever
holds non-negative canonical values, and as `Int` inside the projective
curve formulas, whose intermediate differences can be negative before
they are reduced.  Go's `big.Int.Mod` with a positive modulus is the
Euclidean remainder, which agrees with `Nat.mod` on naturals and with
`Int.emod` on integers.  Fatal failures (`panic`) are modelled by
`Option`, with `none` for a panic.  Go strings are modelled as their
byte sequences (`List Nat`).
-/

namespace MinaSigner

/-! ## Field constants (`field` package, `part_000`) -/

/-- Base-field modulus `P` of the Pallas curve (`field.P`). -/
def P : Nat := 0x40000000000000000000000000000000224698fc094cf91b992d30ed00000001

/-- Scalar-field modulus `Q` (`field.Q`), the order of the Pallas group. -/
def Q : Nat := 0x40000000000000000000000000000000224698fc0994a8dd8c46eb2100000001

/-- Odd factor of `P - 1` (`field.PMinusOneOddFactor`): `P - 1 = PMinusOneOddFactor * 2^32`. -/
def PMinusOneOddFactor : Nat := 0x40000000000000000000000000000000224698fc094cf91b992d30ed

/-- Two-adic root for `Fp` (`field.TwoadicRootFp`), a primitive `2^32`-th root of unity mod `P`. -/
def TwoadicRootFp : Nat := 0x2bce74deac30ebda362120830561f81aea322bf2b7bb7584bdad6fabd87ea32f

/-! ## Nat-level field helpers (`field` package)

`field.Mod(x, p)` on a non-negative `x` is just `x % p` (the
sign-correction branch in the Go source never fires for the call sites
modelled here, all of which pass non-negative values). -/

/-- Binary-exponentiation loop of `field.Power`: Go keeps `result`,
`base` and `exp`, halving `exp` each iteration.  The loop runs at most
`bitlen exp` times; the first argument is a fuel bound (always at least
`exp + 1` at the call site, so the fuel-exhausted branch is
unreachable) that makes the recursion structural, so that the kernel
can evaluate it. -/
def powerAux (p : Nat) : Nat → Nat → Nat → Nat → Nat
  | 0, _, _, result => result
  | fuel + 1, base, exp, result =>
    if exp = 0 then result
    else powerAux p fuel (base * base % p) (exp / 2)
      (if exp % 2 = 1 then result * base % p else result)

/-- Embeds `field.Power(a, n, p)`: modular exponentiation by binary
expansion of the exponent, with the base reduced first. -/
def Power (a n p : Nat) : Nat := powerAux p (n + 1) (a % p) n 1

/-- Embeds `field.IsSquare(x, p)`: Euler's criterion
`x^((p-1)/2) == 1`, with `0` counted as a square. -/
def IsSquare (x p : Nat) : Bool :=
  let x := x % p
  if x = 0 then true
  else Power x ((p - 1) / 2) p == 1

/-- Inner loop of `field.Sqrt`: Go squares `s := t` repeatedly, counting
the squarings until `s == 1`.  The count is the least `i` with
`t^(2^i) ≡ 1 (mod p)`.  The Go loop is unbounded; it is modelled with
fuel, `none` standing for the case in which no exponent below the fuel
works, where the Go code would never find `s == 1` (or would later take
`M - i - 1` on a negative value) — unreachable for the parameters the
library passes. -/
def ord2 (p : Nat) : Nat → Nat → Option Nat
  | 0, _ => none
  | fuel + 1, s => if s = 1 then some 0 else (ord2 p fuel (s * s % p)).map (· + 1)

/-- Main loop of `field.Sqrt` (Tonelli–Shanks): on each pass the least
`i` with `t^(2^i) == 1` is found; `i == M` means `n` is a non-residue
(Go returns `nil`, modelled `none`); otherwise `b = c^(2^(M-i-1))` and
the state is updated as `M := i`, `c := b²`, `t := t·c`, `R := R·b`.
`M` strictly decreases across iterations (`i < M` whenever the loop
continues), so the fuel in the first argument — `M + 1` at the call
site — is never exhausted; it makes the recursion structural so that
the kernel can evaluate it. -/
def sqrtLoop (p : Nat) : Nat → Nat → Nat → Nat → Nat → Option Nat
  | 0, _, _, _, _ => none
  | fuel + 1, t, R, c, M =>
    if t = 1 then some R
    else
      match ord2 p (M + 1) t with
      | none => none
      | some i =>
        if i = M then none
        else
          let b := Power c (2 ^ (M - i - 1)) p
          sqrtLoop p fuel (t * (b * b % p) % p) (R * b % p) (b * b % p) i

/-- Embeds `field.Sqrt(n, p, Q, c, M)`.  Go computes the exponent of the
first `Power` as `Q >> 1` (the `Sub(Q, 1)` result is overwritten by
`Rsh(Q, 1)`), which for the odd `Q` the library passes equals
`(Q-1)/2`; it is written `Q / 2` here. -/
def Sqrt (n p Q c M : Nat) : Option Nat :=
  let n := n % p
  if n = 0 then some 0
  else
    let t := Power n (Q / 2) p
    let R := t * n % p
    let t2 := t * R % p
    sqrtLoop p (M + 1) t2 R c M

/-- Embeds `field.BytesToBigInt` (`big.Int.SetBytes`): big-endian
interpretation of a byte sequence. -/
def BytesToBigInt (b : List Nat) : Nat :=
  b.foldl (fun n byte => 256 * n + byte) 0

/-- Binary digit count by structural recursion on a fuel bound (so that
it evaluates inside the kernel). -/
def bitLenAux : Nat → Nat → Nat
  | 0, _ => 0
  | fuel + 1, n => if n = 0 then 0 else bitLenAux fuel (n / 2) + 1

/-- Embeds `field.Log2(n)` (`big.Int.BitLen`): the number of binary
digits of `n`.  The recursion halves `n` each step, so fuel `n + 1` is
never exhausted. -/
def goBitLen (n : Nat) : Nat := bitLenAux (n + 1) n

/-- Byte width of `Fp` as computed in `field.NewFiniteField`. -/
def FpSizeInBytes : Nat := (goBitLen P + 7) / 8

/-- High-byte mask computed in `field.NewFiniteField`:
`(1 << (sizeInBits - 8*(sizeInBytes-1))) - 1`. -/
def FpHiBitMask : Nat := 2 ^ (goBitLen P - 8 * (FpSizeInBytes - 1)) - 1

/-- Candidate produced by one pass of `field.RandomField` from the drawn
byte sequence: the byte at index `sizeInBytes-1` is masked with the
high-bit mask, and the result is fed to `BytesToBigInt`.  The candidate
is returned when it is below `p`, otherwise fresh bytes are drawn; the
drawn bytes are the only nondeterminism, so they are taken as input. -/
def randomFieldCandidate (bytes : List Nat) (hiBitMask : Nat) : Nat :=
  BytesToBigInt
    (bytes.set (bytes.length - 1) ((bytes.getD (bytes.length - 1) 0) &&& hiBitMask))

/-! ## Projective curve arithmetic (`curve` package, `part_003`)

Coordinates are modelled as `Int`: the Jacobian formulas subtract before
reducing, and `field.Mod` (Go `big.Int.Mod` plus a dead sign-correction
branch) is the Euclidean remainder, i.e. `Int.emod` for a positive
modulus. -/

/-- Embeds `field.Mod` on integers: Go's `big.Int.Mod` is the Euclidean
remainder (non-negative for positive modulus), after which the
`z.Sign() < 0` correction branch never fires; `Int.emod` has the same
values for a positive modulus. -/
def goMod (x p : Int) : Int :=
  let z := x % p
  if z < 0 then z + p else z

/-- Go compares two `*big.Int` pointers with `==` in two places of the
`curve` package (`ProjectiveEqual`'s final return and
`ProjectiveDouble`'s `a = -3` dispatch).  Pointer equality of two
freshly allocated `big.Int` values is always false, whatever they hold;
this models exactly those two call sites, both of which compare fresh
allocations. -/
def goBigIntPtrEq (x y : Int) : Bool := false

/-- Projective (Jacobian) point: `curve.GroupProjective`. -/
structure GroupProjective where
  X : Int
  Y : Int
  Z : Int
deriving DecidableEq, Repr

/-- Affine point with infinity flag: `curve.GroupAffine`. -/
structure GroupAffine where
  X : Int
  Y : Int
  Infinity : Bool
deriving DecidableEq, Repr

/-- The identity sentinel `curve.projectiveZero` = (1, 1, 0). -/
def projectiveZero : GroupProjective := ⟨1, 1, 0⟩

/-- The Pallas generator `curve.pallasGenerator` (Z = 1). -/
def pallasGenerator : GroupProjective :=
  ⟨1, 12418654782883325593414442427049395787963493412651469444558597405572177144507, 1⟩

/-- Embeds `curve.NegateInField`. -/
def NegateInField (x p : Int) : Int := if x = 0 then x else p - x

/-- Embeds `curve.ProjectiveNeg`. -/
def ProjectiveNeg (g : GroupProjective) (p : Int) : GroupProjective :=
  ⟨g.X, NegateInField g.Y p, g.Z⟩

/-- Embeds `curve.ProjectiveEqual`.  The final Go statement returns
`field.Mod(g.Y*hz3) == field.Mod(h.Y*gz3)` — `==` on two `*big.Int`,
i.e. pointer equality of two fresh allocations (`goBigIntPtrEq`), not a
value comparison. -/
def ProjectiveEqual (g h : GroupProjective) (p : Int) : Bool :=
  if (g.Z = 0 || h.Z = 0) && g.Z ≠ h.Z then false
  else
    let gz2 := goMod (g.Z * g.Z) p
    let hz2 := goMod (h.Z * h.Z) p
    if goMod (goMod (g.X * hz2) p - goMod (h.X * gz2) p) p ≠ 0 then false
    else
      let gz3 := goMod (g.Z * gz2) p
      let hz3 := goMod (h.Z * hz2) p
      goBigIntPtrEq (goMod (g.Y * hz3) p) (goMod (h.Y * gz3) p)

/-- Embeds `curve.ProjectiveDoubleA0` (doubling for curve parameter
`a = 0`); Go panics on a finite point with `Y = 0`, modelled `none`. -/
def ProjectiveDoubleA0 (g : GroupProjective) (p : Int) : Option GroupProjective :=
  if g.Z = 0 then some g
  else if g.Y = 0 then none
  else
    let X1 := g.X; let Y1 := g.Y; let Z1 := g.Z
    let A := goMod (X1 * X1) p
    let B := goMod (Y1 * Y1) p
    let C := goMod (B * B) p
    let D := goMod (2 * ((X1 + B) * (X1 + B) - A - C)) p
    let E := goMod (3 * A) p
    let F := goMod (E * E) p
    let X3 := goMod (F - D * 2) p
    let Y3 := goMod (E * (D - X3) - 8 * C) p
    let Z3 := goMod (2 * (Y1 * Z1)) p
    some ⟨X3, Y3, Z3⟩

/-- Embeds `curve.ProjectiveDoubleAminus3`.  Note the Go source computes
`alpha` as `3 * ((X1 + delta) - (X1 - delta))` — a subtraction of the
two factors, not their product — while its own comment says
`alpha = 3*(X1-delta)*(X1+delta)`. -/
def ProjectiveDoubleAminus3 (g : GroupProjective) (p : Int) : Option GroupProjective :=
  if g.Z = 0 then some g
  else if g.Y = 0 then none
  else
    let X1 := g.X; let Y1 := g.Y; let Z1 := g.Z
    let delta := goMod (Z1 * Z1) p
    let gamma := goMod (Y1 * Y1) p
    let beta := goMod (X1 * gamma) p
    let alpha := goMod (3 * ((X1 + delta) - (X1 - delta))) p
    let X3 := goMod (alpha * alpha - 8 * beta) p
    let Z3 := goMod ((Y1 + Z1) * (Y1 + Z1) - (gamma + delta)) p
    let Y3 := goMod (alpha * (4 * beta - X3) - 8 * (gamma * gamma)) p
    some ⟨X3, Y3, Z3⟩

/-- Embeds `curve.ProjectiveDouble`: dispatch on the curve parameter.
The second branch tests `new(big.Int).Add(a, 3) == p` — `==` on a fresh
`*big.Int` pointer and `p`'s pointer, which is always false
(`goBigIntPtrEq`) — so every `a ≠ 0` falls through to the panic,
modelled `none`. -/
def ProjectiveDouble (g : GroupProjective) (p a : Int) : Option GroupProjective :=
  if a = 0 then ProjectiveDoubleA0 g p
  else if goBigIntPtrEq (a + 3) p then ProjectiveDoubleAminus3 g p
  else none

/-- Embeds `curve.ProjectiveAdd`; the `panic("Invalid point")` branch is
modelled `none`. -/
def ProjectiveAdd (g h : GroupProjective) (p a : Int) : Option GroupProjective :=
  if g.Z = 0 then some h
  else if h.Z = 0 then some g
  else
    let X1 := g.X; let Y1 := g.Y; let Z1 := g.Z
    let X2 := h.X; let Y2 := h.Y; let Z2 := h.Z
    let Z1Z1 := goMod (Z1 * Z1) p
    let Z2Z2 := goMod (Z2 * Z2) p
    let U1 := goMod (X1 * Z2Z2) p
    let U2 := goMod (X2 * Z1Z1) p
    let S1 := goMod (Y1 * (Z2 * Z2Z2)) p
    let S2 := goMod (Y2 * (Z1 * Z1Z1)) p
    let H := goMod (U2 - U1) p
    if H = 0 then
      if S1 = S2 then ProjectiveDouble g p a
      else if goMod (S1 + S2) p = 0 then some projectiveZero
      else none
    else
      let I := goMod (4 * (H * H)) p
      let J := goMod (H * I) p
      let R := goMod (2 * (S2 - S1)) p
      let V := goMod (U1 * I) p
      let X3 := goMod (R * R - J - 2 * V) p
      let Y3 := goMod (R * (V - X3) - 2 * (S1 * J)) p
      let Z3 := goMod (((Z1 + Z2) * (Z1 + Z2) - (Z1Z1 + Z2Z2)) * H) p
      some ⟨X3, Y3, Z3⟩

/-- Embeds `curve.BigIntToBits`: exactly 255 bits of `n`, index `i`
holding `n.Bit(i)` (low to high). -/
def BigIntToBits (n : Nat) : List Bool :=
  (List.range 255).map (fun i => n.testBit i)

/-- The double-and-add loop shared by `curve.ProjectiveScale` and the
`Scale` closure of `CreateCurveProjective`: for each bit (LSB first),
add the running power of `g` into the accumulator when the bit is set,
then double the running power. -/
def scaleLoop (p a : Int) : List Bool → GroupProjective → GroupProjective →
    Option GroupProjective
  | [], h, _ => some h
  | bit :: bits, h, g =>
    if bit then
      match ProjectiveAdd h g p a with
      | none => none
      | some h2 =>
        match ProjectiveDouble g p a with
        | none => none
        | some g2 => scaleLoop p a bits h2 g2
    else
      match ProjectiveDouble g p a with
      | none => none
      | some g2 => scaleLoop p a bits h g2

/-- Embeds `curve.ProjectiveScale(g, x, p, a)`. -/
def ProjectiveScale (g : GroupProjective) (x : Nat) (p a : Int) :
    Option GroupProjective :=
  scaleLoop p a (BigIntToBits x) projectiveZero g

/-- Embeds the `Scale` closure installed by `curve.CreateCurveProjective`
(same double-and-add loop, started from a fresh identity sentinel and a
copy of `g`). -/
def CurveScale (g : GroupProjective) (s : Nat) (p a : Int) :
    Option GroupProjective :=
  scaleLoop p a (BigIntToBits s) ⟨1, 1, 0⟩ ⟨g.X, g.Y, g.Z⟩

/-- Embeds `curve.ProjectiveInSubgroup`: scale by the order, compare
with the identity sentinel via `ProjectiveEqual`. -/
def ProjectiveInSubgroup (g : GroupProjective) (p : Int) (order : Nat) (a : Int) :
    Option Bool :=
  (ProjectiveScale g order p a).map (fun r => ProjectiveEqual r projectiveZero p)

/-- Loop of `field.Inverse` (extended Euclid).  The Go loop divides only
the non-negative pair `(b, a)`, so those are `Nat` here; the Bézout
coefficients can go negative and are `Int`.  `a` strictly decreases
(`b % a < a`), so fuel `a + 1` — supplied at the call site to make the
recursion structural — is never exhausted. -/
def inverseLoop : Nat → Nat → Nat → Int → Int → Int → Int → Nat × Int
  | 0, _, b, x, _, _, _ => (b, x)
  | fuel + 1, a, b, x, y, u, v =>
    if a = 0 then (b, x)
    else inverseLoop fuel (b % a) a u v (x - u * (b / a : Nat)) (y - v * (b / a : Nat))

/-- Embeds `field.Inverse(a, p)`: `nil` (no inverse, or zero input)
is `none`. -/
def Inverse (a p : Int) : Option Int :=
  let a0 := goMod a p
  if a0 = 0 then none
  else
    let (b, x) := inverseLoop (a0.toNat + 1) a0.toNat p.toNat 0 1 1 0
    if b ≠ 1 then none else some (goMod x p)

/-- Embeds `curve.ProjectiveToAffine`.  Go leaves `X`, `Y` nil on the
infinity branch (zero values here); the unreachable case in which
`field.Inverse` returns `nil` (so the following `Mul` would dereference
a nil pointer) is `none`. -/
def ProjectiveToAffine (g : GroupProjective) (p : Int) : Option GroupAffine :=
  if g.Z = 0 then some ⟨0, 0, true⟩
  else if g.Z = 1 then some ⟨g.X, g.Y, false⟩
  else
    match Inverse g.Z p with
    | none => none
    | some zInv =>
      let zInvSqrt := goMod (zInv * zInv) p
      let x := goMod (g.X * zInvSqrt) p
      let y := goMod (g.Y * goMod (zInv * zInvSqrt) p) p
      some ⟨x, y, false⟩

/-! ## Hash-input packing (`poseidonbigint` package) -/

/-- Embeds `poseidonbigint.PackedField`: a value with a bit width. -/
structure PackedField where
  Field : Nat
  Size : Nat
deriving DecidableEq, Repr

/-- Embeds `poseidonbigint.HashInput`. -/
structure HashInput where
  Fields : List Nat
  Packed : List PackedField
deriving DecidableEq, Repr

/-- Embeds `HashInputHelpers.Append`. -/
def HashInputAppend (i1 i2 : HashInput) : HashInput :=
  ⟨i1.Fields ++ i2.Fields, i1.Packed ++ i2.Packed⟩

/-- Loop of `poseidonbigint.PackToFields` over the packed entries,
carrying the flushed buckets, the current bucket value and the current
bit count. -/
def packToFieldsLoop : List PackedField → List Nat → Nat → Nat → List Nat × Nat
  | [], acc, cur, _ => (acc, cur)
  | pf :: rest, acc, cur, size =>
    let size2 := size + pf.Size
    if size2 < 255 then
      packToFieldsLoop rest acc ((cur <<< pf.Size) + pf.Field) size2
    else
      packToFieldsLoop rest (acc ++ [cur]) pf.Field pf.Size

/-- Embeds `poseidonbigint.PackToFields`. -/
def PackToFields (input : HashInput) : List Nat :=
  if input.Packed.isEmpty then input.Fields
  else
    let (packedBits, cur) := packToFieldsLoop input.Packed [] 0 0
    input.Fields ++ (packedBits ++ [cur])

/-! ## Compressed-key reconstruction (`curvebigint` package) -/

/-- Embeds `curvebigint.Group` (affine point, both coordinates
canonical field elements). -/
structure Group where
  X : Nat
  Y : Nat
deriving DecidableEq, Repr

/-- Embeds `curvebigint.PublicKey` (compressed point). -/
structure PublicKey where
  X : Nat
  IsOdd : Bool
deriving DecidableEq, Repr

/-- Embeds `schnorr.Signature`. -/
structure Signature where
  R : Nat
  S : Nat
deriving DecidableEq, Repr

/-- Embeds the `Negate` closure of `Fp` (`field.NewFiniteField`):
zero maps to itself, otherwise `Mod(-x, P)`. -/
def fpNegate (x : Nat) : Nat :=
  if x = 0 then 0 else (goMod (-(x : Int)) (P : Int)).toNat

/-- Embeds `curvebigint.PublicKeyToGroup`: reconstruct the affine point
from the compressed key; `y = sqrt(x³ + 5)`, flipped when its parity
disagrees with the stored flag.  Go panics when `Fp.Sqrt` returns `nil`
(invalid x-coordinate); that is `none`. -/
def PublicKeyToGroup (pk : PublicKey) : Option Group :=
  let x := pk.X
  let x2 := x * x % P
  let x3 := x2 * x % P
  let ySquared := (x3 + 5) % P
  match Sqrt ySquared P PMinusOneOddFactor TwoadicRootFp 32 with
  | none => none
  | some y =>
    let yIsOdd := y.testBit 0
    let y2 := if pk.IsOdd ≠ yIsOdd then fpNegate y else y
    some ⟨x, y2⟩

/-- Embeds `curvebigint.GroupToProjective` (`ProjectiveFromAffine` with
`Infinity: false`). -/
def GroupToProjective (g : Group) : GroupProjective :=
  ⟨(g.X : Int), (g.Y : Int), 1⟩

/-- The `One` field installed by `CreateCurveProjective` for Pallas:
the generator with `Z = 1`. -/
def pallasOne : GroupProjective := ⟨pallasGenerator.X, pallasGenerator.Y, 1⟩

/-- Embeds `schnorr.Verify`.  The Poseidon transcript hash
(`schnorr.HashMessage`) depends on round-constant tables provided by a
`constants` package that is not part of the modelled sources, so it is a
parameter here.  `curvebigint.GroupFromProjective`'s error branch
(point at infinity) makes Verify return `false`; a Go panic anywhere
(`PublicKeyToGroup` on an invalid x-coordinate, or a curve-arithmetic
panic) is `none`. -/
def Verify (hashMessage : HashInput → Group → Nat → List Nat → Nat)
    (sig : Signature) (message : HashInput) (pub : PublicKey)
    (networkId : List Nat) : Option Bool :=
  match PublicKeyToGroup pub with
  | none => none
  | some pk =>
    let e := hashMessage message pk sig.R networkId
    match CurveScale pallasOne sig.S (P : Int) 0 with
    | none => none
    | some s1 =>
      match CurveScale (GroupToProjective pk) e (P : Int) 0 with
      | none => none
      | some s2 =>
        match ProjectiveAdd s1 (ProjectiveNeg s2 (P : Int)) (P : Int) 0 with
        | none => none
        | some rp =>
          match ProjectiveToAffine rp (P : Int) with
          | none => none
          | some aff =>
            if aff.Infinity then some false
            else some (decide (goMod aff.Y (P : Int) % 2 = 0) &&
                       decide (aff.X = (sig.R : Int)))

/-! ## Network identifiers and nonce derivation (`schnorr` package) -/

/-- Byte sequence of the Go string `"mainnet"`. -/
def mainnetBytes : List Nat := [109, 97, 105, 110, 110, 101, 116]

/-- Byte sequence of the Go string `"devnet"`. -/
def devnetBytes : List Nat := [100, 101, 118, 110, 101, 116]

/-- Byte sequence of the Go string `"testnet"`. -/
def testnetBytes : List Nat := [116, 101, 115, 116, 110, 101, 116]

/-- Embeds `schnorr.NumberToBytePadded` as the bit sequence it denotes:
`strconv.FormatInt(b, 2)` left-padded with `'0'` to 8 characters is,
for a byte value, the 8 bits of `b` most-significant first. -/
def byteToBitsMSB (b : Nat) : List Bool :=
  (List.range 8).map (fun j => b.testBit (7 - j))

/-- Value of a binary numeral given most-significant bit first, as
`big.Int.SetString(s, 0)` computes it for a `"0b"`-prefixed numeral. -/
def bitStringToNat (bits : List Bool) : Nat :=
  bits.foldl (fun v b => 2 * v + (if b then 1 else 0)) 0

/-- Embeds `schnorr.NetworkIdOfString`: the Go loop runs `i` from
`len(n)-1` down to `0`, appending the padded binary text of byte `n[i]`,
so the accumulated numeral holds the bytes in reverse string order.
`SetString` on the empty numeral (empty input string) returns `nil`,
modelled `none`. -/
def NetworkIdOfString (n : List Nat) : Option Nat × Nat :=
  let acc := n.reverse.flatMap byteToBitsMSB
  ((if acc.isEmpty then none else some (bitStringToNat acc)), acc.length)

/-- Embeds `schnorr.GetNetworkIdHashInput`. -/
def GetNetworkIdHashInput (network : List Nat) : Option Nat × Nat :=
  if network = mainnetBytes then (some 1, 8)
  else if network = devnetBytes ∨ network = testnetBytes then (some 0, 8)
  else NetworkIdOfString network

/-- Loop of `schnorr.BitsToBytes`: bit `i` is OR-ed into bit position
`i % 8` of byte `i / 8` of the zero-initialised output. -/
def bitsToBytesLoop : List Bool → Nat → List Nat → List Nat
  | [], _, out => out
  | b :: rest, i, out =>
    bitsToBytesLoop rest (i + 1)
      (if b then out.set (i / 8) ((out.getD (i / 8) 0) ||| (1 <<< (i % 8))) else out)

/-- Embeds `schnorr.BitsToBytes`. -/
def BitsToBytes (bits : List Bool) : List Nat :=
  bitsToBytesLoop bits 0 (List.replicate ((bits.length + 7) / 8) 0)

/-- Embeds `scalar.ScalarFromBytes(bs).BigInt()`: reverse the byte
sequence, interpret big-endian, reduce mod `Q`. -/
def ScalarFromBytes (bs : List Nat) : Nat :=
  BytesToBigInt bs.reverse % Q

/-- Embeds `schnorr.DeriveNonce`, parametric in the 256-bit hash
(`Blake2b256` comes from an external library; it always returns 32
bytes, so Go's `bytes[31] &= 0x3f` is modelled with `set`/`getD` at
index 31).  A `nil` network-id value (empty network string) would crash
inside `PackToFields`; that is `none`. -/
def DeriveNonce (blake : List Nat → List Nat) (message : HashInput)
    (publicKey : Group) (priv : Nat) (networkId : List Nat) : Option Nat :=
  let x := publicKey.X
  let y := publicKey.Y
  let d := priv % P
  match GetNetworkIdHashInput networkId with
  | (none, _) => none
  | (some idx, idy) =>
    let input := HashInputAppend message ⟨[x, y, d], [⟨idx, idy⟩]⟩
    let packedInput := PackToFields input
    let inputBits := packedInput.flatMap BigIntToBits
    let inputBytes := BitsToBytes inputBits
    let bytes := blake inputBytes
    let bytes2 := bytes.set 31 ((bytes.getD 31 0) &&& 0x3f)
    some (ScalarFromBytes bytes2)

/-! ## Spec-side definitions

These follow the wording of the specification (and of the claims
derived from it), to be compared with the definitions above, which
follow the Go source. -/

/-- Spec wording of `packToFields`' greedy packing: a running bucket
`(v, sz)` starting at `(0, 0)`; each pair's width is added to the
count; while the new total stays strictly under 255 the bucket is
shifted left by the pair's width and the pair's value added, otherwise
the bucket is flushed and a new bucket starts from the pair; the final
bucket is flushed after all pairs. -/
def specBuckets (v sz : Nat) : List PackedField → List Nat
  | [] => [v]
  | pf :: rest =>
    if sz + pf.Size < 255 then specBuckets (v * 2 ^ pf.Size + pf.Field) (sz + pf.Size) rest
    else v :: specBuckets pf.Field pf.Size rest

/-- Spec wording of `packToFields`: plain fields pass through unchanged
and in order, followed by the flushed buckets; a fields-only input is
passed through as is. -/
def specPackToFields (input : HashInput) : List Nat :=
  input.Fields ++ (if input.Packed.isEmpty then [] else specBuckets 0 0 input.Packed)

/-- Value claimed by the spec for a custom network-identifier string:
big-endian concatenation of the bytes' 8-bit blocks with the FIRST
(most significant) character contributing the most significant bits. -/
def claimNetworkIdValue (s : List Nat) : Nat :=
  bitStringToNat (s.flatMap byteToBitsMSB)

/-- Value of bits placed from bit position `j` upward (bit `k` of the
list lands at position `j + k`), as the spec's byte-packing sentence
describes a byte built from eight stream bits. -/
def bitsValAt : List Bool → Nat → Nat
  | [], _ => 0
  | b :: bs, j => (if b then 1 <<< j else 0) ||| bitsValAt bs (j + 1)

/-- Spec wording of the bit-to-byte packing of the nonce pipeline: the
stream is cut into consecutive groups of eight bits, stream bit `i`
landing at bit position `i % 8` of byte `i / 8`; a trailing partial
group forms the last byte. -/
def specBytesOfBits : List Bool → List Nat
  | [] => []
  | b0 :: b1 :: b2 :: b3 :: b4 :: b5 :: b6 :: b7 :: rest =>
    bitsValAt [b0, b1, b2, b3, b4, b5, b6, b7] 0 :: specBytesOfBits rest
  | bits => [bitsValAt bits 0]

/-- Spec wording of step 6 of the nonce pipeline: clear the top two
bits of the last byte. -/
def specMaskLast (bytes : List Nat) : List Nat :=
  bytes.dropLast ++ [(bytes.getLast?.getD 0) &&& 0x3f]

/-- Spec wording of the nonce pipeline after packing: unroll every
packed element into exactly 255 bits (fixed width, element order,
low-to-high within an element); pack the stream into bytes; hash with
the 256-bit hash; clear the top two bits of the last byte; reverse the
32-byte sequence; interpret as an integer and reduce mod `Q`. -/
def specNonceOfPacked (blake : List Nat → List Nat) (packed : List Nat) : Nat :=
  let bits := packed.flatMap (fun f => (List.range 255).map (fun i => f.testBit i))
  let bytes := blake (specBytesOfBits bits)
  let masked := specMaskLast bytes
  BytesToBigInt masked.reverse % Q

/-! ## Helper lemmas -/

/-- The packing loop flushes exactly the buckets the spec describes. -/
theorem packToFieldsLoop_spec (ps : List PackedField) :
    ∀ (acc : List Nat) (cur sz : Nat),
      (packToFieldsLoop ps acc cur sz).1 ++ [(packToFieldsLoop ps acc cur sz).2] =
        acc ++ specBuckets cur sz ps := by
  induction ps with
  | nil => intro acc cur sz; simp [packToFieldsLoop, specBuckets]
  | cons pf rest ih =>
    intro acc cur sz
    simp only [packToFieldsLoop, specBuckets]
    by_cases h : sz + pf.Size < 255
    · rw [if_pos h, if_pos h, ih, Nat.shiftLeft_eq]
    · rw [if_neg h, if_neg h, ih]
      simp

/-- Folding the most-significant-first bits of a value below `2^k` into
a binary accumulator appends its `k` binary digits. -/
theorem foldl_bitsMSB (k : Nat) :
    ∀ b v : Nat, b < 2 ^ k →
      ((List.range k).map (fun j => b.testBit (k - 1 - j))).foldl
        (fun w bit => 2 * w + (if bit then 1 else 0)) v = 2 ^ k * v + b := by
  induction k with
  | zero => intro b v hb; interval_cases b; simp
  | succ k ih =>
    intro b v hb
    rw [List.range_succ_eq_map, List.map_cons, List.map_map]
    have hshape : (fun j => b.testBit (k + 1 - 1 - j)) ∘ (· + 1) =
        fun j => b.testBit (k - 1 - j) := by
      funext j
      simp only [Function.comp]
      congr 1
      omega
    rw [hshape, List.foldl_cons]
    have hlow : ((List.range k).map fun j => b.testBit (k - 1 - j)) =
        (List.range k).map fun j => (b % 2 ^ k).testBit (k - 1 - j) := by
      apply List.map_congr_left
      intro j hj
      rw [Nat.testBit_mod_two_pow]
      have : k - 1 - j < k := by
        have := List.mem_range.mp hj
        omega
      simp [this]
    have hpos : 0 < 2 ^ k := Nat.pos_pow_of_pos k (by norm_num)
    have hdiv : b / 2 ^ k < 2 := by
      rw [Nat.div_lt_iff_lt_mul hpos]
      rw [pow_succ] at hb
      omega
    have htop : (if b.testBit (k + 1 - 1 - 0) then 1 else 0) = b / 2 ^ k := by
      simp only [Nat.sub_zero, Nat.add_sub_cancel, Nat.testBit_to_div_mod,
        Nat.mod_eq_of_lt hdiv]
      interval_cases h : b / 2 ^ k <;> simp
    rw [htop, hlow, ih (b % 2 ^ k) _ (Nat.mod_lt _ hpos)]
    have hsplit := Nat.div_add_mod b (2 ^ k)
    calc 2 ^ k * (2 * v + b / 2 ^ k) + b % 2 ^ k
        = 2 ^ (k + 1) * v + (2 ^ k * (b / 2 ^ k) + b % 2 ^ k) := by ring
      _ = 2 ^ (k + 1) * v + b := by rw [hsplit]

/-- A byte list's MSB-first bit concatenation has 8 bits per byte. -/
theorem flatMap_byteBits_length (l : List Nat) :
    (l.flatMap byteToBitsMSB).length = 8 * l.length := by
  induction l with
  | nil => rfl
  | cons b rest ih =>
    simp only [List.flatMap_cons, List.length_append, ih, List.length_cons]
    have : (byteToBitsMSB b).length = 8 := rfl
    omega

/-- Reading a byte list's MSB-first bit concatenation as a binary
numeral is the big-endian byte interpretation. -/
theorem bitString_eq_bytes (l : List Nat) (hl : ∀ b ∈ l, b < 256) :
    bitStringToNat (l.flatMap byteToBitsMSB) = BytesToBigInt l := by
  suffices h : ∀ v, (l.flatMap byteToBitsMSB).foldl
      (fun w bit => 2 * w + (if bit then 1 else 0)) v =
      l.foldl (fun n byte => 256 * n + byte) v from h 0
  induction l with
  | nil => intro v; rfl
  | cons b rest ih =>
    intro v
    simp only [List.flatMap_cons, List.foldl_append]
    rw [show byteToBitsMSB b = (List.range 8).map (fun j => b.testBit (8 - 1 - j)) from rfl,
      foldl_bitsMSB 8 b v (hl b (by simp))]
    norm_num
    exact ih (fun x hx => hl x (by simp [hx])) _

/-- Setting the element after a prefix. -/
theorem set_after_len (pre : List Nat) (w x : Nat) (rest : List Nat) :
    (pre ++ w :: rest).set pre.length x = pre ++ x :: rest := by
  induction pre with
  | nil => rfl
  | cons a as ih => simpa [List.set] using ih

/-- Reading the element after a prefix. -/
theorem getD_after_len (pre : List Nat) (w : Nat) (rest : List Nat) (d : Nat) :
    (pre ++ w :: rest).getD pre.length d = w := by
  induction pre with
  | nil => rfl
  | cons a as ih => simpa [List.getD] using ih

/-- The byte-packing loop processes a concatenation in two runs. -/
theorem bitsToBytesLoop_append (xs ys : List Bool) :
    ∀ (i : Nat) (out : List Nat),
      bitsToBytesLoop (xs ++ ys) i out =
        bitsToBytesLoop ys (i + xs.length) (bitsToBytesLoop xs i out) := by
  induction xs with
  | nil => intro i out; simp [bitsToBytesLoop]
  | cons b rest ih =>
    intro i out
    simp only [List.cons_append, bitsToBytesLoop, List.length_cons, List.append_eq]
    rw [ih]
    congr 1
    omega

/-- Within one byte: feeding at most eight bits starting at stream
position `8*m + j` only ORs them, from bit position `j` up, into the
byte at index `m`. -/
theorem bitsToBytesLoop_inner (bs : List Bool) :
    ∀ (j m : Nat) (pre : List Nat) (v : Nat) (rest : List Nat),
      pre.length = m → j + bs.length ≤ 8 →
      bitsToBytesLoop bs (8 * m + j) (pre ++ v :: rest) =
        pre ++ (v ||| bitsValAt bs j) :: rest := by
  induction bs with
  | nil =>
    intro j m pre v rest hm hj
    simp [bitsToBytesLoop, bitsValAt]
  | cons b bs ih =>
    intro j m pre v rest hm hj
    subst hm
    have hlen : j + bs.length + 1 ≤ 8 := by
      simp only [List.length_cons] at hj
      omega
    have hj7 : j < 8 := by omega
    have hdiv : (8 * pre.length + j) / 8 = pre.length := by omega
    have hmod : (8 * pre.length + j) % 8 = j := by omega
    have hnext : 8 * pre.length + j + 1 = 8 * pre.length + (j + 1) := by omega
    cases b with
    | false =>
      show bitsToBytesLoop bs (8 * pre.length + j + 1) (pre ++ v :: rest) = _
      rw [hnext, ih (j + 1) pre.length pre v rest rfl (by omega)]
      simp [bitsValAt]
    | true =>
      show bitsToBytesLoop bs (8 * pre.length + j + 1)
          ((pre ++ v :: rest).set ((8 * pre.length + j) / 8)
            ((pre ++ v :: rest).getD ((8 * pre.length + j) / 8) 0
              ||| 1 <<< ((8 * pre.length + j) % 8))) = _
      rw [hdiv, hmod, getD_after_len, set_after_len]
      rw [hnext, ih (j + 1) pre.length pre (v ||| 1 <<< j) rest rfl (by omega)]
      simp [bitsValAt, Nat.or_assoc]

/-- The spec-side byte grouping cuts off one eight-bit group at a time. -/
theorem specBytesOfBits_chunk (bits : List Bool) (h : bits ≠ []) :
    specBytesOfBits bits =
      bitsValAt (bits.take 8) 0 :: specBytesOfBits (bits.drop 8) := by
  rcases bits with _ | ⟨b0, t0⟩
  · exact absurd rfl h
  rcases t0 with _ | ⟨b1, t1⟩
  · rfl
  rcases t1 with _ | ⟨b2, t2⟩
  · rfl
  rcases t2 with _ | ⟨b3, t3⟩
  · rfl
  rcases t3 with _ | ⟨b4, t4⟩
  · rfl
  rcases t4 with _ | ⟨b5, t5⟩
  · rfl
  rcases t5 with _ | ⟨b6, t6⟩
  · rfl
  rcases t6 with _ | ⟨b7, t7⟩
  · rfl
  rfl

/-- The byte-packing loop, started at a byte boundary over a
zero-initialised tail, produces the spec's eight-bit groups. -/
theorem bitsToBytesLoop_chunks (n : Nat) :
    ∀ (bits : List Bool), bits.length ≤ n → ∀ (m : Nat) (pre : List Nat),
      pre.length = m →
      bitsToBytesLoop bits (8 * m) (pre ++ List.replicate ((bits.length + 7) / 8) 0) =
        pre ++ specBytesOfBits bits := by
  induction n with
  | zero =>
    intro bits hlen m pre hm
    have : bits = [] := List.length_eq_zero.mp (by omega)
    subst this
    simp [bitsToBytesLoop, specBytesOfBits]
  | succ n ih =>
    intro bits hlen m pre hm
    rcases hbits : bits with _ | ⟨b, bs⟩
    · simp [bitsToBytesLoop, specBytesOfBits]
    rw [← hbits]
    have hne : bits ≠ [] := by rw [hbits]; simp
    have hpos : 0 < bits.length := List.length_pos.mpr hne
    rw [specBytesOfBits_chunk bits hne]
    by_cases h8 : bits.length ≤ 8
    · have hcount : (bits.length + 7) / 8 = 1 := by omega
      have htake : bits.take 8 = bits := List.take_of_length_le h8
      have hdrop : bits.drop 8 = [] := List.drop_eq_nil_of_le h8
      rw [hcount, htake, hdrop]
      have := bitsToBytesLoop_inner bits 0 m pre 0 [] hm (by omega)
      simp only [Nat.add_zero] at this
      rw [show List.replicate 1 0 = [(0 : Nat)] from rfl, this]
      simp [specBytesOfBits, Nat.zero_or]
    · have hsplit : bits = bits.take 8 ++ bits.drop 8 := (List.take_append_drop 8 bits).symm
      have hlen8 : (bits.take 8).length = 8 := by
        rw [List.length_take]
        omega
      have hcount : (bits.length + 7) / 8 = 1 + ((bits.drop 8).length + 7) / 8 := by
        rw [List.length_drop]
        omega
      rw [hcount]
      have hrep : List.replicate (1 + ((bits.drop 8).length + 7) / 8) (0 : Nat) =
          0 :: List.replicate (((bits.drop 8).length + 7) / 8) 0 := by
        rw [Nat.add_comm, List.replicate_succ]
      rw [hrep]
      have hstep : bitsToBytesLoop bits (8 * m)
          (pre ++ 0 :: List.replicate (((bits.drop 8).length + 7) / 8) 0) =
          bitsToBytesLoop (bits.take 8 ++ bits.drop 8) (8 * m)
          (pre ++ 0 :: List.replicate (((bits.drop 8).length + 7) / 8) 0) := by
        rw [← hsplit]
      rw [hstep, bitsToBytesLoop_append]
      have hinner := bitsToBytesLoop_inner (bits.take 8) 0 m pre 0
        (List.replicate (((bits.drop 8).length + 7) / 8) 0) hm (by simp [hlen8])
      simp only [Nat.add_zero] at hinner
      rw [hinner, hlen8]
      have hpre' : (pre ++ [0 ||| bitsValAt (bits.take 8) 0]).length = m + 1 := by
        simp [hm]
      have happ : pre ++ (0 ||| bitsValAt (bits.take 8) 0) ::
            List.replicate (((bits.drop 8).length + 7) / 8) 0 =
          (pre ++ [0 ||| bitsValAt (bits.take 8) 0]) ++
            List.replicate (((bits.drop 8).length + 7) / 8) 0 := by
        simp
      rw [happ, show 8 * m + 8 = 8 * (m + 1) from by ring]
      rw [ih (bits.drop 8) (by rw [List.length_drop]; omega) (m + 1) _ hpre']
      simp [Nat.zero_or]


/-- The byte-packing loop over the whole stream equals the spec's
eight-bit grouping. -/
theorem bitsToBytes_eq_spec (bits : List Bool) :
    BitsToBytes bits = specBytesOfBits bits := by
  have := bitsToBytesLoop_chunks bits.length bits le_rfl 0 [] rfl
  simpa [BitsToBytes] using this

/-- Setting the final element of a non-empty list. -/
theorem set_last_eq_dropLast (l : List Nat) (x : Nat) :
    l ≠ [] → l.set (l.length - 1) x = l.dropLast ++ [x] := by
  induction l with
  | nil => intro h; exact absurd rfl h
  | cons a as ih =>
    intro _
    cases as with
    | nil => rfl
    | cons b bs =>
      have hlen : (a :: b :: bs).length - 1 = ((b :: bs).length - 1) + 1 := by
        simp
      rw [hlen]
      show a :: (b :: bs).set ((b :: bs).length - 1) x = _
      rw [ih (by simp)]
      rfl

/-- Reading the final element of a non-empty list. -/
theorem getD_last (l : List Nat) (d : Nat) :
    l ≠ [] → l.getD (l.length - 1) d = l.getLast?.getD d := by
  induction l with
  | nil => intro h; exact absurd rfl h
  | cons a as ih =>
    intro _
    cases as with
    | nil => rfl
    | cons b bs =>
      have hlen : (a :: b :: bs).length - 1 = ((b :: bs).length - 1) + 1 := by
        simp
      rw [hlen]
      show (b :: bs).getD ((b :: bs).length - 1) d = _
      rw [ih (by simp), List.getLast?_cons_cons]

/-- Go's `bytes[31] &= 0x3f` on a 32-byte hash output is the spec's
"clear the top two bits of the last byte". -/
theorem maskLast_eq (bytes : List Nat) (h : bytes.length = 32) :
    bytes.set 31 ((bytes.getD 31 0) &&& 0x3f) = specMaskLast bytes := by
  have hne : bytes ≠ [] := by
    intro hc
    rw [hc] at h
    simp at h
  have h31 : (31 : Nat) = bytes.length - 1 := by omega
  rw [specMaskLast, h31, getD_last _ _ hne, set_last_eq_dropLast _ _ hne]

/-- C8: `PackToFields` passes the plain fields through unchanged and in
order, then greedily packs the (value, width) pairs exactly as the
specification's running-bucket description says, flushing the final
bucket; a fields-only input is returned as is. -/
theorem packToFields_greedy_spec (input : HashInput) :
    PackToFields input = specPackToFields input := by
  unfold PackToFields specPackToFields
  by_cases h : input.Packed.isEmpty
  · simp [h]
  · rw [if_neg h, if_neg h]
    have hspec := packToFieldsLoop_spec input.Packed [] 0 0
    simp only [List.nil_append] at hspec
    show input.Fields ++ ((packToFieldsLoop input.Packed [] 0 0).1 ++
      [(packToFieldsLoop input.Packed [] 0 0).2]) = _
    rw [hspec]

/-- C10: scalar multiplication depends only on the low 255 bits of the
scalar — `Scale(g, s) = Scale(g, s mod 2^255)` — because
`BigIntToBits` always produces exactly 255 bits. -/
theorem scale_depends_on_low_255_bits (p a : Int) (g : GroupProjective) (s : Nat) :
    CurveScale g s p a = CurveScale g (s % 2 ^ 255) p a ∧
      (BigIntToBits s).length = 255 := by
  constructor
  · have hb : BigIntToBits s = BigIntToBits (s % 2 ^ 255) := by
      unfold BigIntToBits
      apply List.map_congr_left
      intro i hi
      rw [Nat.testBit_mod_two_pow]
      simp [List.mem_range.mp hi]
    unfold CurveScale
    rw [hb]
  · simp [BigIntToBits]

/-- C9 (showing the claim fails): for the draw of 32 bytes all `0xFF`,
the candidate compared against `P` is `2^256 - 129`, not below `2^255`:
the mask `0x7F` is applied to the byte that the big-endian
`BytesToBigInt` treats as LEAST significant, because `RandomField`
does not byte-reverse before `SetBytes` the way `FromBytes` does. -/
theorem randomField_candidate_exceeds_bitlength_bound :
    FpSizeInBytes = 32 ∧ FpHiBitMask = 127 ∧
    randomFieldCandidate (List.replicate 32 255) FpHiBitMask = 2 ^ 256 - 129 ∧
    ¬ randomFieldCandidate (List.replicate 32 255) FpHiBitMask < 2 ^ 255 := by
  decide

/-- C7 counterexample: for the two-character string "ab" (bytes 97, 98)
the code returns value `0x6261 = 25185` — the LAST character lands in
the most significant byte — while the claim's first-character-most-
significant reading gives `0x6162 = 24930`. -/
theorem networkId_counterexample :
    GetNetworkIdHashInput [97, 98] = (some 25185, 16) ∧
    claimNetworkIdValue [97, 98] = 24930 ∧
    (GetNetworkIdHashInput [97, 98]).1 ≠ some (claimNetworkIdValue [97, 98]) := by
  decide

/-- C7 amended: "mainnet" maps to (1, 8), "devnet"/"testnet" to (0, 8),
and any other non-empty string of bytes maps to the big-endian
concatenation of its bytes in REVERSED order — the last character
contributes the most significant bits — with width `8·len(s)` (the
empty string yields no value: Go's `SetString` fails on the empty
numeral). -/
theorem networkId_mapping_amended :
    GetNetworkIdHashInput mainnetBytes = (some 1, 8) ∧
    GetNetworkIdHashInput devnetBytes = (some 0, 8) ∧
    GetNetworkIdHashInput testnetBytes = (some 0, 8) ∧
    ∀ s : List Nat, s ≠ mainnetBytes → s ≠ devnetBytes → s ≠ testnetBytes →
      s ≠ [] → (∀ b ∈ s, b < 256) →
      GetNetworkIdHashInput s = (some (BytesToBigInt s.reverse), 8 * s.length) := by
  refine ⟨by decide, by decide, by decide, ?_⟩
  intro s h1 h2 h3 h4 h5
  rw [GetNetworkIdHashInput, if_neg h1, if_neg (by tauto), NetworkIdOfString]
  have hlen : (s.reverse.flatMap byteToBitsMSB).length = 8 * s.length := by
    rw [flatMap_byteBits_length, List.length_reverse]
  have hne : (s.reverse.flatMap byteToBitsMSB).isEmpty = false := by
    rw [List.isEmpty_eq_false_iff_exists_mem]
    rcases s with _ | ⟨b, rest⟩
    · exact absurd rfl h4
    · refine ⟨(b : Nat).testBit 7, ?_⟩
      simp only [List.mem_flatMap]
      exact ⟨b, by simp, by simp [byteToBitsMSB, List.range_succ]⟩
  rw [bitString_eq_bytes _ (fun b hb => h5 b (List.mem_reverse.mp hb))]
  simp [hne, hlen]

/-- The exponentiation loop computes `result * base ^ exp` mod `p`. -/
theorem powerAux_eq (p : Nat) (hp : 1 < p) :
    ∀ (fuel exp base result : Nat), exp < fuel → result < p →
      powerAux p fuel base exp result = (result * base ^ exp) % p := by
  intro fuel
  induction fuel with
  | zero => intro exp base result h; omega
  | succ f ih =>
    intro exp base result hf hr
    rw [powerAux]
    by_cases he : exp = 0
    · subst he
      simp [Nat.mod_eq_of_lt hr]
    · rw [if_neg he]
      have hfuel : exp / 2 < f := by
        have hlt : exp / 2 < exp := Nat.div_lt_self (Nat.pos_of_ne_zero he) (by omega)
        omega
      have hr' : (if exp % 2 = 1 then result * base % p else result) < p := by
        split
        · exact Nat.mod_lt _ (by omega)
        · exact hr
      rw [ih (exp / 2) (base * base % p) _ hfuel hr']
      show _ % p = _ % p
      have hbb : base * base % p ≡ base * base [MOD p] := Nat.mod_modEq _ _
      rcases Nat.mod_two_eq_zero_or_one exp with h2 | h2
      · rw [if_neg (by omega)]
        have hpow : (base * base) ^ (exp / 2) = base ^ exp := by
          rw [← pow_two, ← pow_mul]
          congr 1
          omega
        calc (result * (base * base % p) ^ (exp / 2)) % p
            = (result * (base * base) ^ (exp / 2)) % p :=
              Nat.ModEq.mul_left result (hbb.pow (exp / 2))
          _ = (result * base ^ exp) % p := by rw [hpow]
      · rw [if_pos h2]
        have hpow : base * (base * base) ^ (exp / 2) = base ^ exp := by
          rw [← pow_two, ← pow_mul, ← pow_succ']
          congr 1
          omega
        calc ((result * base % p) * (base * base % p) ^ (exp / 2)) % p
            = ((result * base) * (base * base) ^ (exp / 2)) % p :=
              (Nat.mod_modEq (result * base) p).mul (hbb.pow (exp / 2))
          _ = (result * base ^ exp) % p := by rw [mul_assoc, hpow]

/-- The embedded `field.Power` is modular exponentiation. -/
theorem Power_eq (a n p : Nat) (hp : 1 < p) : Power a n p = a ^ n % p := by
  rw [Power, powerAux_eq p hp (n + 1) n (a % p) 1 (by omega) (by omega),
    one_mul, ← Nat.pow_mod]

/-- The embedded `field.Power` returns a canonical value. -/
theorem Power_lt (a n p : Nat) (hp : 1 < p) : Power a n p < p := by
  rw [Power_eq a n p hp]
  exact Nat.mod_lt _ (by omega)

/-- The embedded `field.Power` seen in `ZMod p`. -/
theorem Power_cast {p : Nat} (hp : 1 < p) (a n : Nat) :
    ((Power a n p : Nat) : ZMod p) = (a : ZMod p) ^ n := by
  rw [Power_eq a n p hp, ZMod.natCast_mod, Nat.cast_pow]

/-- Two canonical values that agree in `ZMod p` are equal. -/
theorem natCast_inj_of_lt {p a b : Nat} [NeZero p] (ha : a < p) (hb : b < p)
    (h : (a : ZMod p) = (b : ZMod p)) : a = b := by
  have hv := congrArg ZMod.val h
  rwa [ZMod.val_cast_of_lt ha, ZMod.val_cast_of_lt hb] at hv

/-- The squaring count returned by `ord2` is below the fuel. -/
theorem ord2_lt_fuel {p : Nat} : ∀ {fuel s i : Nat}, ord2 p fuel s = some i → i < fuel
  | 0, s, i, h => by simp [ord2] at h
  | fuel + 1, s, i, h => by
    rw [ord2] at h
    by_cases hs : s = 1
    · simp [hs] at h
      omega
    · simp [hs, Option.map_eq_some'] at h
      obtain ⟨j, hj, rfl⟩ := h
      have := ord2_lt_fuel hj
      omega

/-- The inner-loop model `ord2` finds the least `i` with
`s^(2^i) ≡ 1 (mod p)` when one
exists below the fuel. -/
theorem ord2_eq_some {p : Nat} [NeZero p] (hp : 1 < p) :
    ∀ (fuel s j : Nat), s < p → j < fuel →
      ((s : ZMod p) ^ 2 ^ j = 1) → (∀ k < j, (s : ZMod p) ^ 2 ^ k ≠ 1) →
      ord2 p fuel s = some j := by
  intro fuel
  induction fuel with
  | zero => intro s j _ hj; omega
  | succ f ih =>
    intro s j hs hj h1 hmin
    rw [ord2]
    by_cases hs1 : s = 1
    · have hj0 : j = 0 := by
        by_contra hne
        exact hmin 0 (by omega) (by rw [hs1]; simp)
      rw [if_pos hs1, hj0]
    · rw [if_neg hs1]
      have hj0 : j ≠ 0 := by
        intro h0
        subst h0
        simp only [pow_zero, pow_one] at h1
        exact hs1 (natCast_inj_of_lt hs hp (by rw [h1, Nat.cast_one]))
      obtain ⟨j', rfl⟩ : ∃ j', j = j' + 1 := ⟨j - 1, by omega⟩
      have hsq : (((s * s % p : Nat)) : ZMod p) = (s : ZMod p) ^ 2 := by
        rw [ZMod.natCast_mod, Nat.cast_mul, pow_two]
      rw [ih (s * s % p) j' (Nat.mod_lt _ (by omega)) (by omega) ?_ ?_]
      · rfl
      · rw [hsq, ← pow_mul]
        rw [show 2 * 2 ^ j' = 2 ^ (j' + 1) from by rw [pow_succ]; ring]
        exact h1
      · intro k hk hcontra
        apply hmin (k + 1) (by omega)
        rw [hsq, ← pow_mul] at hcontra
        rwa [show 2 * 2 ^ k = 2 ^ (k + 1) from by rw [pow_succ]; ring] at hcontra

/-- Tonelli–Shanks loop, success: when `t` is a `2^(M-1)`-th root of
unity and `c` a primitive `2^M`-th root (i.e. `c^(2^(M-1)) = -1`), the
loop returns some `r` with `r² = x`, threading the invariant
`R² = x·t`. -/
theorem sqrtLoop_some {p : Nat} [Fact p.Prime] (hp2 : 2 < p) (x : ZMod p) :
    ∀ M : Nat, ∀ fuel t R c : Nat, M < fuel → 1 ≤ M → t < p →
      ((t : ZMod p) ^ 2 ^ (M - 1) = 1) →
      ((c : ZMod p) ^ 2 ^ (M - 1) = -1) →
      ((R : ZMod p) ^ 2 = x * t) →
      ∃ r, sqrtLoop p fuel t R c M = some r ∧ (r : ZMod p) ^ 2 = x := by
  haveI : NeZero p := ⟨by omega⟩
  intro M
  induction M using Nat.strong_induction_on with
  | _ M ihM =>
    intro fuel t R c hfuel hM ht hinv1 hinv2 hinvR
    obtain ⟨f, rfl⟩ : ∃ f, fuel = f + 1 := ⟨fuel - 1, by omega⟩
    rw [sqrtLoop]
    by_cases ht1 : t = 1
    · refine ⟨R, by rw [if_pos ht1], ?_⟩
      rw [ht1] at hinvR
      simpa using hinvR
    · rw [if_neg ht1]
      have htZ : (t : ZMod p) ≠ 1 := by
        intro hcontra
        exact ht1 (natCast_inj_of_lt ht (by omega) (by rw [hcontra, Nat.cast_one]))
      have hex : ∃ j, (t : ZMod p) ^ 2 ^ j = 1 := ⟨M - 1, hinv1⟩
      have hi1 : (t : ZMod p) ^ 2 ^ Nat.find hex = 1 := Nat.find_spec hex
      have himin : ∀ k < Nat.find hex, (t : ZMod p) ^ 2 ^ k ≠ 1 :=
        fun k hk => Nat.find_min hex hk
      have hile : Nat.find hex ≤ M - 1 := Nat.find_min' hex hinv1
      have hipos : 1 ≤ Nat.find hex := by
        rcases Nat.eq_zero_or_pos (Nat.find hex) with h0 | h
        · rw [h0, pow_zero, pow_one] at hi1
          exact absurd hi1 htZ
        · exact h
      have hiM : Nat.find hex < M := by omega
      rw [ord2_eq_some (by omega) (M + 1) t (Nat.find hex) ht (by omega) hi1 himin]
      have hbZ : ((Power c (2 ^ (M - Nat.find hex - 1)) p : Nat) : ZMod p) =
          (c : ZMod p) ^ 2 ^ (M - Nat.find hex - 1) := Power_cast (by omega) c _
      have hb2 : ((Power c (2 ^ (M - Nat.find hex - 1)) p *
            Power c (2 ^ (M - Nat.find hex - 1)) p % p : Nat) : ZMod p) =
          (c : ZMod p) ^ 2 ^ (M - Nat.find hex) := by
        rw [ZMod.natCast_mod, Nat.cast_mul, hbZ, ← pow_add]
        congr 1
        have hlt : Nat.find hex < M := hiM
        rw [show 2 ^ (M - Nat.find hex - 1) + 2 ^ (M - Nat.find hex - 1) =
          2 ^ (M - Nat.find hex - 1) * 2 from by ring, ← pow_succ]
        congr 1
        omega
      have hc' : ((Power c (2 ^ (M - Nat.find hex - 1)) p *
            Power c (2 ^ (M - Nat.find hex - 1)) p % p : Nat) : ZMod p) ^
            2 ^ (Nat.find hex - 1) = -1 := by
        rw [hb2, ← pow_mul, ← pow_add]
        rw [show M - Nat.find hex + (Nat.find hex - 1) = M - 1 from by omega]
        exact hinv2
      have htneg : (t : ZMod p) ^ 2 ^ (Nat.find hex - 1) = -1 := by
        have hsq : ((t : ZMod p) ^ 2 ^ (Nat.find hex - 1)) ^ 2 = 1 := by
          rw [← pow_mul, show 2 ^ (Nat.find hex - 1) * 2 = 2 ^ Nat.find hex from by
            rw [← pow_succ]; congr 1; omega]
          exact hi1
        rcases sq_eq_one_iff.mp hsq with h | h
        · exact absurd h (himin (Nat.find hex - 1) (by omega))
        · exact h
      have hct : ((t * (Power c (2 ^ (M - Nat.find hex - 1)) p *
            Power c (2 ^ (M - Nat.find hex - 1)) p % p) % p : Nat) : ZMod p) ^
            2 ^ (Nat.find hex - 1) = 1 := by
        rw [ZMod.natCast_mod, Nat.cast_mul, mul_pow, htneg, hc']
        ring
      have hR' : ((R * Power c (2 ^ (M - Nat.find hex - 1)) p % p : Nat) : ZMod p) ^ 2 =
          x * ((t * (Power c (2 ^ (M - Nat.find hex - 1)) p *
            Power c (2 ^ (M - Nat.find hex - 1)) p % p) % p : Nat) : ZMod p) := by
        rw [ZMod.natCast_mod, Nat.cast_mul, mul_pow, hinvR,
          ZMod.natCast_mod, Nat.cast_mul, hb2, hbZ, ← pow_mul]
        rw [show 2 ^ (M - Nat.find hex - 1) * 2 = 2 ^ (M - Nat.find hex) from by
          rw [← pow_succ]; congr 1; omega]
        ring
      obtain ⟨r, hr, hr2⟩ := ihM (Nat.find hex) hiM f _ _ _ (by omega) hipos
        (Nat.mod_lt _ (by omega)) hct hc' hR'
      refine ⟨r, ?_, hr2⟩
      show (if Nat.find hex = M then none
        else sqrtLoop p f
          (t * (Power c (2 ^ (M - Nat.find hex - 1)) p *
            Power c (2 ^ (M - Nat.find hex - 1)) p % p) % p)
          (R * Power c (2 ^ (M - Nat.find hex - 1)) p % p)
          (Power c (2 ^ (M - Nat.find hex - 1)) p *
            Power c (2 ^ (M - Nat.find hex - 1)) p % p)
          (Nat.find hex)) = some r
      rw [if_neg (by omega : ¬ Nat.find hex = M)]
      exact hr

/-- Tonelli–Shanks loop, failure: when `t^(2^(M-1)) = -1` the least
order exponent is exactly `M`, and the loop reports a non-residue. -/
theorem sqrtLoop_none {p : Nat} [Fact p.Prime] (hp2 : 2 < p)
    (M fuel t R c : Nat) (hfuel : M < fuel) (ht : t < p) (hM : 1 ≤ M)
    (h1 : (t : ZMod p) ^ 2 ^ M = 1) (hneg : (t : ZMod p) ^ 2 ^ (M - 1) = -1) :
    sqrtLoop p fuel t R c M = none := by
  haveI : NeZero p := ⟨by omega⟩
  haveI : Fact (2 < p) := ⟨hp2⟩
  obtain ⟨f, rfl⟩ : ∃ f, fuel = f + 1 := ⟨fuel - 1, by omega⟩
  rw [sqrtLoop]
  have ht1 : t ≠ 1 := by
    intro hcontra
    subst hcontra
    rw [Nat.cast_one, one_pow] at hneg
    exact @ZMod.neg_one_ne_one p _ hneg.symm
  rw [if_neg ht1]
  have hmin : ∀ k < M, (t : ZMod p) ^ 2 ^ k ≠ 1 := by
    intro k hk hcontra
    have : (t : ZMod p) ^ 2 ^ (M - 1) = 1 := by
      rw [show M - 1 = k + (M - 1 - k) from by omega, pow_add, pow_mul, hcontra,
        one_pow]
    rw [this] at hneg
    exact @ZMod.neg_one_ne_one p _ hneg.symm
  rw [ord2_eq_some (by omega) (M + 1) t M ht (by omega) h1 hmin]
  show (if M = M then none
    else sqrtLoop p f
      (t * (Power c (2 ^ (M - M - 1)) p * Power c (2 ^ (M - M - 1)) p % p) % p)
      (R * Power c (2 ^ (M - M - 1)) p % p)
      (Power c (2 ^ (M - M - 1)) p * Power c (2 ^ (M - M - 1)) p % p) M) = none
  rw [if_pos rfl]

/-- C4: for every input `x` (taken mod `p`), `IsSquare(x, p)` is true
exactly when `Sqrt(x, p, Q, c, M)` succeeds; `Sqrt(0)` returns 0; and a
returned root `r` satisfies `r² ≡ x (mod p)`.  Stated for any valid
Tonelli–Shanks parameterisation: `p` an odd prime, `Q` odd with
`p - 1 = Q·2^M`, and `c` whose `2^(M-1)`-th power is `-1 mod p` (the
library's two-adic roots satisfy this). -/
theorem sqrt_isSquare_correct (p qOdd c M x : Nat)
    (hp : p.Prime) (hp2 : 2 < p) (hQ : qOdd % 2 = 1)
    (hfact : p - 1 = qOdd * 2 ^ M)
    (hc : Power c (2 ^ (M - 1)) p = p - 1) :
    (IsSquare x p = true ↔ (Sqrt x p qOdd c M).isSome = true) ∧
    Sqrt 0 p qOdd c M = some 0 ∧
    (∀ r, Sqrt x p qOdd c M = some r → r ^ 2 % p = x % p) := by
  haveI hfp : Fact p.Prime := ⟨hp⟩
  haveI : NeZero p := ⟨by omega⟩
  have hp1 : 1 < p := by omega
  have hodd : p % 2 = 1 := by
    rcases hp.eq_two_or_odd with h | h
    · omega
    · exact h
  have hM1 : 1 ≤ M := by
    by_contra hM0
    push_neg at hM0
    interval_cases M
    simp only [pow_zero, mul_one] at hfact
    omega
  have hzero : Sqrt 0 p qOdd c M = some 0 := by
    simp [Sqrt]
  by_cases hx0 : x % p = 0
  · have hS : Sqrt x p qOdd c M = some 0 := by
      simp only [Sqrt]
      rw [if_pos hx0]
    have hIs : IsSquare x p = true := by
      simp only [IsSquare]
      rw [if_pos hx0]
    refine ⟨by simp [hS, hIs], hzero, ?_⟩
    intro r hr
    rw [hS] at hr
    obtain rfl : (0 : Nat) = r := by injection hr
    simp [hx0]
  · have hn : x % p < p := Nat.mod_lt _ (by omega)
    have hnZ : ((x % p : Nat) : ZMod p) ≠ 0 := by
      intro h
      rw [ZMod.natCast_zmod_eq_zero_iff_dvd] at h
      exact hx0 (Nat.eq_zero_of_dvd_of_lt h hn)
    have hhalf : (p - 1) / 2 = qOdd * 2 ^ (M - 1) := by
      obtain ⟨m, rfl⟩ : ∃ m, M = m + 1 := ⟨M - 1, by omega⟩
      rw [hfact, pow_succ, ← mul_assoc, Nat.mul_div_cancel _ (by norm_num),
        Nat.add_sub_cancel]
    have hfermat : ((x % p : Nat) : ZMod p) ^ (p - 1) = 1 :=
      ZMod.pow_card_sub_one_eq_one hnZ
    have hu2 : (((x % p : Nat) : ZMod p) ^ ((p - 1) / 2)) ^ 2 = 1 := by
      rw [← pow_mul, show (p - 1) / 2 * 2 = p - 1 from by omega, hfermat]
    have hPowerEuler : ((Power (x % p) ((p - 1) / 2) p : Nat) : ZMod p) =
        ((x % p : Nat) : ZMod p) ^ ((p - 1) / 2) := Power_cast hp1 _ _
    have hpm1 : ((p - 1 : Nat) : ZMod p) = -1 := by
      rw [Nat.cast_sub (by omega), Nat.cast_one, ZMod.natCast_self, zero_sub]
    have hSqrt : Sqrt x p qOdd c M = sqrtLoop p (M + 1)
        (Power (x % p) (qOdd / 2) p *
          (Power (x % p) (qOdd / 2) p * (x % p) % p) % p)
        (Power (x % p) (qOdd / 2) p * (x % p) % p) c M := by
      simp only [Sqrt]
      rw [if_neg hx0]
    have ht0 : ((Power (x % p) (qOdd / 2) p : Nat) : ZMod p) =
        ((x % p : Nat) : ZMod p) ^ (qOdd / 2) := Power_cast hp1 _ _
    have hR0 : ((Power (x % p) (qOdd / 2) p * (x % p) % p : Nat) : ZMod p) =
        ((x % p : Nat) : ZMod p) ^ (qOdd / 2 + 1) := by
      rw [ZMod.natCast_mod, Nat.cast_mul, ht0, pow_succ]
    have ht2 : ((Power (x % p) (qOdd / 2) p *
          (Power (x % p) (qOdd / 2) p * (x % p) % p) % p : Nat) : ZMod p) =
        ((x % p : Nat) : ZMod p) ^ qOdd := by
      rw [ZMod.natCast_mod, Nat.cast_mul, ht0, hR0, ← pow_add]
      congr 1
      omega
    have ht2pow : ((Power (x % p) (qOdd / 2) p *
          (Power (x % p) (qOdd / 2) p * (x % p) % p) % p : Nat) : ZMod p) ^
          2 ^ (M - 1) = ((x % p : Nat) : ZMod p) ^ ((p - 1) / 2) := by
      rw [ht2, ← pow_mul, hhalf]
    have hR0sq : ((Power (x % p) (qOdd / 2) p * (x % p) % p : Nat) : ZMod p) ^ 2 =
        ((x % p : Nat) : ZMod p) * ((Power (x % p) (qOdd / 2) p *
          (Power (x % p) (qOdd / 2) p * (x % p) % p) % p : Nat) : ZMod p) := by
      rw [hR0, ht2, ← pow_mul, show (qOdd / 2 + 1) * 2 = qOdd + 1 from by omega,
        pow_succ']
    have hcZ : (c : ZMod p) ^ 2 ^ (M - 1) = -1 := by
      have h1 := congrArg (fun v : Nat => (v : ZMod p)) hc
      simp only at h1
      rw [Power_cast hp1] at h1
      rw [h1, hpm1]
    rcases sq_eq_one_iff.mp hu2 with hu1 | hun1
    · obtain ⟨r, hloop, hr2⟩ := sqrtLoop_some hp2 ((x % p : Nat) : ZMod p) M (M + 1)
        _ _ c (by omega) hM1 (Nat.mod_lt _ (by omega)) (by rw [ht2pow, hu1]) hcZ hR0sq
      have hIs : IsSquare x p = true := by
        simp only [IsSquare]
        rw [if_neg hx0]
        have hones : Power (x % p) ((p - 1) / 2) p = 1 :=
          natCast_inj_of_lt (Power_lt _ _ _ hp1) hp1
            (by rw [hPowerEuler, hu1, Nat.cast_one])
        rw [hones]
        rfl
      refine ⟨?_, hzero, ?_⟩
      · rw [hIs, hSqrt, hloop]
        simp
      · intro r' hr'
        rw [hSqrt, hloop] at hr'
        obtain rfl : r = r' := by injection hr'
        have hlhs : r ^ 2 % p < p := Nat.mod_lt _ (by omega)
        apply natCast_inj_of_lt hlhs hn
        rw [ZMod.natCast_mod, Nat.cast_pow, hr2]
    · have ht2M : ((Power (x % p) (qOdd / 2) p *
            (Power (x % p) (qOdd / 2) p * (x % p) % p) % p : Nat) : ZMod p) ^
            2 ^ M = 1 := by
        rw [show (2 : Nat) ^ M = 2 ^ (M - 1) * 2 from by
          rw [← pow_succ]; congr 1; omega]
        rw [pow_mul, ht2pow, hun1]
        norm_num
      have hnone : sqrtLoop p (M + 1)
          (Power (x % p) (qOdd / 2) p *
            (Power (x % p) (qOdd / 2) p * (x % p) % p) % p)
          (Power (x % p) (qOdd / 2) p * (x % p) % p) c M = none :=
        sqrtLoop_none hp2 M (M + 1) _ _ c (by omega) (Nat.mod_lt _ (by omega)) hM1
          ht2M (by rw [ht2pow, hun1])
      have hIs : IsSquare x p = false := by
        simp only [IsSquare]
        rw [if_neg hx0]
        have hne : Power (x % p) ((p - 1) / 2) p = p - 1 :=
          natCast_inj_of_lt (Power_lt _ _ _ hp1) (by omega)
            (by rw [hPowerEuler, hun1, hpm1])
        rw [hne]
        rw [beq_eq_false_iff_ne]
        omega
      refine ⟨?_, hzero, ?_⟩
      · rw [hIs, hSqrt, hnone]
        simp
      · intro r hr
        rw [hSqrt, hnone] at hr
        exact absurd hr (by simp)

/-- C4 witness at the valid parameterisation `p = 13`, `Q = 3`,
`c = 5`, `M = 2` (so `12 = 3·2²` and `5² ≡ -1 (mod 13)`), input 10. -/
theorem sqrt_isSquare_correct_witness :
    (IsSquare 10 13 = true ↔ (Sqrt 10 13 3 5 2).isSome = true) ∧
    Sqrt 0 13 3 5 2 = some 0 ∧
    (∀ r, Sqrt 10 13 3 5 2 = some r → r ^ 2 % 13 = 10 % 13) :=
  sqrt_isSquare_correct 13 3 5 2 10 (by norm_num) (by norm_num) (by norm_num)
    (by norm_num) (by decide)

/-- C5 (showing the claim fails): scaling the Pallas generator by the
curve order does produce exactly the identity sentinel (1, 1, 0), yet
`IsInSubgroup(G)` returns `false`, because `ProjectiveEqual`'s final
comparison is Go pointer equality of two freshly allocated `big.Int`
values — even the identity is not `Equal` to itself. -/
theorem isInSubgroup_generator_false_despite_scale_identity :
    ProjectiveScale pallasGenerator Q (P : Int) 0 = some projectiveZero ∧
    ProjectiveInSubgroup pallasGenerator (P : Int) Q 0 = some false ∧
    ProjectiveEqual projectiveZero projectiveZero (P : Int) = false := by
  refine ⟨by decide, by decide, by decide⟩

/-- C6 (showing the claim fails): for `a = p - 3` (`a ≡ -3 (mod p)`,
nonzero) doubling the Pallas generator panics: the dispatch compares
`new(big.Int).Add(a, 3)` to `p` with pointer `==`, so the `a = -3`
branch is unreachable.  Moreover the `a = -3` body itself computes
`alpha = 3*((X1+delta)-(X1-delta))`, not the product its comment (and
the claim) state: at the point (2, 3, 1) it yields `X3 = P - 108`,
whereas the claimed `alpha = 3*(X1-delta)*(X1+delta) = 9` would give
`X3 = 81 - 144 = P - 63`. -/
theorem projectiveDouble_a_minus_3_panics :
    ProjectiveDouble pallasGenerator (P : Int) ((P : Int) - 3) = none ∧
    ((P : Int) - 3 ≠ 0) ∧
    (ProjectiveDoubleAminus3 ⟨2, 3, 1⟩ (P : Int)).map (fun g => g.X) =
      some ((P : Int) - 108) ∧
    goMod (9 * 9 - 8 * 18) (P : Int) = (P : Int) - 63 ∧
    (P : Int) - 108 ≠ (P : Int) - 63 := by
  refine ⟨by decide, by decide, by decide, by decide, by decide⟩

/-- C2 (showing the claim fails): for the compressed key with `x = 0`
(and `x³ + b = 5` a non-residue mod `P`, so the x-coordinate is
invalid), `Verify` does not return `false`: `PublicKeyToGroup` panics
when `Fp.Sqrt` returns `nil`, and `schnorr.Verify` calls it with no
recovery, so verification dies before producing a boolean. -/
theorem verify_panics_on_invalid_public_key_x :
    IsSquare 5 P = false ∧
    PublicKeyToGroup ⟨0, false⟩ = none ∧
    Verify (fun _ _ _ _ => 0) ⟨1, 1⟩ ⟨[], []⟩ ⟨0, false⟩ mainnetBytes = none := by
  refine ⟨by decide, by decide, by decide⟩

/-- C3: after packing, `DeriveNonce` follows the claimed pipeline:
each packed element is unrolled into exactly 255 bits (fixed width,
element order, low-to-high within an element); the bit stream goes into
bytes with bit `i` at bit position `i % 8` of byte `i / 8`; the bytes
are hashed by the 256-bit hash to 32 bytes; the top two bits of the
last byte are cleared; and the reversed 32-byte sequence, read as an
integer, is reduced mod `Q`.  The hash is a parameter (the BLAKE2b-256
implementation is an external library); its output length 32 is the
only fact used about it. -/
theorem deriveNonce_refines_spec_pipeline
    (blake : List Nat → List Nat) (hb : ∀ bs, (blake bs).length = 32)
    (message : HashInput) (publicKey : Group) (priv : Nat) (networkId : List Nat)
    (idx idy : Nat) (hnet : GetNetworkIdHashInput networkId = (some idx, idy)) :
    DeriveNonce blake message publicKey priv networkId =
      some (specNonceOfPacked blake
        (PackToFields (HashInputAppend message
          ⟨[publicKey.X, publicKey.Y, priv % P], [⟨idx, idy⟩]⟩))) := by
  unfold DeriveNonce
  rw [hnet]
  show some (ScalarFromBytes _) = _
  unfold specNonceOfPacked ScalarFromBytes
  rw [bitsToBytes_eq_spec, maskLast_eq _ (hb _)]
  rfl

/-- C3 witness: a concrete evaluation with a stand-in 32-byte hash, the
empty message, public key (1, 2), private scalar 3 and network id
"testnet". -/
theorem deriveNonce_refines_spec_pipeline_witness :
    DeriveNonce (fun _ => List.replicate 32 7) ⟨[], []⟩ ⟨1, 2⟩ 3 testnetBytes =
      some (specNonceOfPacked (fun _ => List.replicate 32 7)
        (PackToFields (HashInputAppend ⟨[], []⟩ ⟨[1, 2, 3 % P], [⟨0, 8⟩]⟩))) :=
  deriveNonce_refines_spec_pipeline (fun _ => List.replicate 32 7)
    (fun _ => rfl) ⟨[], []⟩ ⟨1, 2⟩ 3 testnetBytes 0 8 (by decide)

/-- C7 amended, witness at the one-character string "z" (byte 122). -/
theorem networkId_mapping_amended_witness :
    GetNetworkIdHashInput [122] = (some (BytesToBigInt [122].reverse), 8 * [122].length) :=
  networkId_mapping_amended.2.2.2 [122] (by decide) (by decide) (by decide)
    (by decide) (by decide)

end MinaSigner
